import Mathlib

/-!
Verification development for the `Tools` repository (CSPT_tool/extract-paths.js).

The tool has two modes:
* extraction mode: recursively collect `.js` files, extract route-like string
  literals containing `/:param` markers, substitute sequential placeholder
  values (`magun4`, `magun4_1`, ...) and write `paths.txt` / `CSPT_magun4.txt`;
* URL-list mode: canonicalize the query strings of a list of URLs with the
  same placeholder scheme.

Below, each JavaScript function of the source is embedded as an executable
Lean definition over `List Char` / `String`.  Bounded-fuel wrappers are used
where the JavaScript loop is not structurally recursive; the fuel is the
input length, which is always sufficient (each step consumes at least one
character).
-/

/-- Character class `[a-zA-Z0-9_]` used by the substitution regex
`:([a-zA-Z0-9_]+)` in `replacePaths` (extract-paths.js line 106). -/
def isIdent (c : Char) : Bool :=
  c.isAlpha || c.isDigit || c == '_'

/-- Character class `[a-zA-Z0-9\-_/*]` of the extraction regex: the part of a
candidate path before the first `/:` marker (extract-paths.js line 63). -/
def isA (c : Char) : Bool :=
  c.isAlpha || c.isDigit || c == '-' || c == '_' || c == '/' || c == '*'

/-- Character class `[a-zA-Z0-9\-_]` of the extraction regex: the first run of
parameter-name characters after `/:` (extract-paths.js line 63). -/
def isB (c : Char) : Bool :=
  c.isAlpha || c.isDigit || c == '-' || c == '_'

/-- Character class `[a-zA-Z0-9\-_/*:]` of the extraction regex: the lazy tail
of a candidate path (extract-paths.js line 63). -/
def isC (c : Char) : Bool :=
  isB c || c == '/' || c == '*' || c == ':'

/-- The quote delimiters accepted by the extraction regex: single quote,
double quote, or backtick (code point 96). -/
def isQuote (c : Char) : Bool :=
  c == '\'' || c == '"' || c.toNat == 96

/-- Every character a captured path can contain: letters, digits and
`- _ / * :` (union of the three classes of the extraction regex plus `/:`). -/
def isPathChar (c : Char) : Bool :=
  c.isAlpha || c.isDigit || c == '-' || c == '_' || c == '/' || c == '*' || c == ':'

/-- The placeholder produced for the `idx`-th substituted parameter
(0-indexed): `magun4` for the first, `magun4_idx` afterwards
(extract-paths.js line 107 and line 161). -/
def magunValue (idx : Nat) : String :=
  if idx = 0 then "magun4" else "magun4_" ++ toString idx

/-- Whether the head of the list is an identifier character; used to decide
whether a `:` starts a match of `:([a-zA-Z0-9_]+)`. -/
def headIsIdent (cs : List Char) : Bool :=
  match cs with
  | [] => false
  | c :: _ => isIdent c

/-- Fuel-bounded scan of `pathStr.replace(/:([a-zA-Z0-9_]+)/g, cb)`
(extract-paths.js lines 103-110): scanning left to right, a `:` followed by at
least one identifier character is replaced - together with the maximal
identifier run after it - by the next placeholder, and the counter `n` is
incremented; any other character is copied.  The fuel is always at least the
list length at every call, so the `0` case is never taken from the wrapper. -/
def substParamsF : Nat → List Char → Nat → List Char
  | 0, _, _ => []
  | _ + 1, [], _ => []
  | fuel + 1, c :: rest, n =>
    if c == ':' && headIsIdent rest then
      (magunValue n).data ++ substParamsF fuel (rest.dropWhile isIdent) (n + 1)
    else
      c :: substParamsF fuel rest n

/-- `pathStr.replace(/:([a-zA-Z0-9_]+)/g, ...)` with the running parameter
index starting at `n`; `replacePaths` calls it with `n = 0`. -/
def substParams (cs : List Char) (n : Nat) : List Char :=
  substParamsF cs.length cs n

/-- `str.replace(/suf$/, '')` for a literal suffix: remove one trailing
occurrence of `suf` if present (used for the trailing `/*` of a path,
extract-paths.js line 113, and the trailing `/` of the domain, line 116). -/
def stripSuffixOnce (cs suf : List Char) : List Char :=
  if suf.isSuffixOf cs then cs.take (cs.length - suf.length) else cs

/-- `replacePaths(path, domain)` (extract-paths.js lines 102-120): substitute
the parameters left to right starting at index 0, drop one trailing `/*`,
strip one trailing `/` from the domain, make sure the path starts with `/`,
and concatenate. -/
def replacePaths (pathStr domain : String) : String :=
  let replaced := substParams pathStr.data 0
  let withoutWildcard := stripSuffixOnce replaced ['/', '*']
  let cleanDomain := stripSuffixOnce domain.data ['/']
  let cleanPath :=
    if withoutWildcard.head? == some '/' then withoutWildcard
    else '/' :: withoutWildcard
  (cleanDomain ++ cleanPath).asString

/-!
## The extraction regex

`extractPaths` (extract-paths.js lines 58-99) repeatedly executes

  `/['"`](\/[a-zA-Z0-9\-_/*]*\/:[a-zA-Z0-9\-_]+[a-zA-Z0-9\-_/*:]*?)['"`]/g`

over the file content.  The embedding below follows the backtracking
semantics of the JavaScript engine:

* `[C]*?` is lazy and the closing quote class is disjoint from `C`, so after
  the mandatory first `[B]` character the match extends over the maximal run
  of `C` characters and succeeds exactly when the run stops at a quote
  (`matchBC`, `matchLazyC`);
* `[A]*` is greedy, so the engine first tries to extend the `A` run and only
  on failure tries to read `/:` at the current position (`matchA`,
  `tryHere`);
* the whole pattern is retried at the next position after a failure, and
  continues after the closing quote (`lastIndex`) after a success
  (`scanPathsF`).
-/

/-- Lazy tail of the regex: consume `C` characters until the first quote
character; fail if a non-`C` non-quote character or the end of input is
reached first.  Returns the consumed run and the input after the quote. -/
def matchLazyC : List Char → Option (List Char × List Char)
  | [] => none
  | c :: rest =>
    if isQuote c then some ([], rest)
    else if isC c then
      match matchLazyC rest with
      | some (g, r) => some (c :: g, r)
      | none => none
    else none

/-- `[B]+[C]*?` followed by the closing quote: at least one `B` character,
then the lazy `C` tail.  Since `B ⊆ C` and quotes are not `C` characters,
greedily backtracking `[B]+` is equivalent to this deterministic scan. -/
def matchBC : List Char → Option (List Char × List Char)
  | [] => none
  | c :: rest =>
    if isB c then
      match matchLazyC rest with
      | some (g, r) => some (c :: g, r)
      | none => none
    else none

/-- Attempt `\/:[B]+[C]*?` plus closing quote at the current position. -/
def tryHere : List Char → Option (List Char × List Char)
  | [] => none
  | [_] => none
  | c1 :: c2 :: rest =>
    if c1 == '/' && c2 == ':' then
      match matchBC rest with
      | some (g, r) => some (c1 :: c2 :: g, r)
      | none => none
    else none

/-- Greedy `[A]*` followed by `\/:[B]+[C]*?` and the closing quote: first try
to consume one more `A` character; if the rest of the pattern cannot match,
backtrack and try `/:` at the current position. -/
def matchA : List Char → Option (List Char × List Char)
  | [] => none
  | c :: rest =>
    if isA c then
      match matchA rest with
      | some (g, r) => some (c :: g, r)
      | none => tryHere (c :: rest)
    else tryHere (c :: rest)

/-- Attempt the whole pattern at the current position: an opening quote, the
mandatory leading `/` of the capture group, then `matchA`.  Returns the
captured group (starting with `/`) and the input after the closing quote. -/
def tryMatchAt : List Char → Option (List Char × List Char)
  | [] => none
  | [_] => none
  | q :: c2 :: rest =>
    if isQuote q && c2 == '/' then
      match matchA rest with
      | some (g, r) => some (c2 :: g, r)
      | none => none
    else none

/-- Fuel-bounded `regex.exec` loop: try the pattern at each position, emit the
captured group on success and continue after the closing quote, otherwise
advance one character.  With fuel equal to input length, fuel never runs
out before the input does. -/
def scanPathsF : Nat → List Char → List (List Char)
  | 0, _ => []
  | _ + 1, [] => []
  | fuel + 1, c :: rest =>
    match tryMatchAt (c :: rest) with
    | some (g, r) => g :: scanPathsF fuel r
    | none => scanPathsF fuel rest

/-- All capture groups of the global regex over the content, in match order. -/
def scanPaths (cs : List Char) : List (List Char) :=
  scanPathsF cs.length cs

/-- Does the list start with `\/:[a-zA-Z]`? (One position of the validation
test `/\/:[a-zA-Z][a-zA-Z0-9\-_]*/`, whose trailing `*` matches the empty
string, so only `/`, `:` and one letter are required.) -/
def markerAt : List Char → Bool
  | '/' :: ':' :: c :: _ => c.isAlpha
  | _ => false

/-- `/\/:[a-zA-Z][a-zA-Z0-9\-_]*/.test(path)` (extract-paths.js line 90):
some position starts with `/:` followed by a letter. -/
def hasParamMarker : List Char → Bool
  | [] => false
  | c :: rest => markerAt (c :: rest) || hasParamMarker rest

/-- `str.includes(pat)` for a fixed pattern: some suffix starts with `pat`. -/
def containsSeq (pat : List Char) : List Char → Bool
  | [] => pat.isEmpty
  | c :: rest => pat.isPrefixOf (c :: rest) || containsSeq pat rest

/-- `path.startsWith('/')`. -/
def startsWithSlash (p : List Char) : Bool :=
  p.head? == some '/' 

/-- The validation filter of `extractPaths` (extract-paths.js lines 76-91), in
source order: starts with `/`, contains `/:`, contains none of space, `(`,
`)`, `[`, `]`, backslash, the sequence `?!`, `|`, has length strictly between
2 and 200, and contains a well-formed parameter marker. -/
def validPath (p : List Char) : Bool :=
  startsWithSlash p &&
  containsSeq ['/', ':'] p &&
  !(p.contains ' ') &&
  !(p.contains '(') &&
  !(p.contains ')') &&
  !(p.contains '[') &&
  !(p.contains ']') &&
  !(p.contains '\\') &&
  !(containsSeq ['?', '!'] p) &&
  !(p.contains '|') &&
  decide (2 < p.length) &&
  decide (p.length < 200) &&
  hasParamMarker p

/-- `path.replace(/\/\*$/, '/*')` (extract-paths.js line 93): replace a
trailing `/*` by `/*` - a no-op kept for faithfulness. -/
def cleanPath (p : List Char) : List Char :=
  if ['/', '*'].isSuffixOf p then p.take (p.length - 2) ++ ['/', '*'] else p

/-- Deduplication with first-occurrence order, as produced by inserting into a
JavaScript `Set` and converting back with `Array.from`. -/
def dedupAcc {α : Type} [DecidableEq α] (seen : List α) : List α → List α
  | [] => []
  | x :: xs => if x ∈ seen then dedupAcc seen xs else x :: dedupAcc (x :: seen) xs

/-- `Array.from(new Set(l))`: first occurrences, in order. -/
def firstDedup {α : Type} [DecidableEq α] (l : List α) : List α :=
  dedupAcc [] l

/-- `extractPaths(content)` (extract-paths.js lines 58-99): run the global
regex, keep the captures passing `validPath`, normalize the (no-op) trailing
wildcard, and deduplicate via a `Set`. -/
def extractPaths (content : String) : List String :=
  (firstDedup (((scanPaths content.data).filter validPath).map cleanPath)).map
    List.asString

/-!
## URL-list mode (`processUrlList`, extract-paths.js lines 123-183)

The per-line processing is modelled below.  Reading and splitting the input
file is elided: the model takes the list of lines.  Node's WHATWG `URL` class
is external library code, so it is modelled from the spec (see `parseURL`).
-/

/-- Whitespace removed by JavaScript `String.prototype.trim` (space, tab,
newline, carriage return, vertical tab, form feed, NBSP, BOM; the rarer
Unicode space characters are elided). -/
def isJsWS (c : Char) : Bool :=
  c == ' ' || c == '\t' || c == '\n' || c == '\r' || c.toNat == 11 ||
  c.toNat == 12 || c.toNat == 160 || c.toNat == 0xfeff

/-- `line.trim()`. -/
def jsTrim (cs : List Char) : List Char :=
  ((cs.dropWhile isJsWS).reverse.dropWhile isJsWS).reverse

/-- ASCII lower-casing, the part of case-insensitive regex matching relevant
to `/^https?:\/\//i`. -/
def lowerAscii (c : Char) : Char :=
  if 'A' ≤ c ∧ c ≤ 'Z' then Char.ofNat (c.toNat + 32) else c

/-- `/^https?:\/\//i.test(line)` (extract-paths.js line 137). -/
def startsHttp (cs : List Char) : Bool :=
  (cs.take 7).map lowerAscii == "http://".data ||
  (cs.take 8).map lowerAscii == "https://".data

/-- Split at the first occurrence of `sep`, which is dropped; `none` when
`sep` does not occur. -/
def splitFirst (sep : Char) : List Char → Option (List Char × List Char)
  | [] => none
  | c :: rest =>
    if c == sep then some ([], rest)
    else
      match splitFirst sep rest with
      | some (a, b) => some (c :: a, b)
      | none => none

/-- Split on every occurrence of `sep` (separators dropped, empty pieces
kept). -/
def splitChar (sep : Char) (cs : List Char) : List (List Char) :=
  cs.foldr
    (fun c acc =>
      if c == sep then [] :: acc
      else
        match acc with
        | h :: t => (c :: h) :: t
        | [] => [[c]])
    [[]]

/-- The fields of a parsed URL used by `processUrlList`: `origin`,
`pathname`, the query entries of `searchParams`, and `hash`. -/
structure URLRec where
  origin : String
  pathname : String
  entries : List (String × String)
  hash : String
  deriving Repr, DecidableEq

/-- Query-string parsing as done by `URLSearchParams`: split on `&`, drop
empty pieces, split each piece at the first `=` (a piece without `=` gets an
empty value).  Percent-decoding and `+`-decoding are elided. -/
def parseQueryEntries (q : List Char) : List (String × String) :=
  ((splitChar '&' q).filter (fun seg => !seg.isEmpty)).map
    (fun seg =>
      match splitFirst '=' seg with
      | some (k, v) => (k.asString, v.asString)
      | none => (seg.asString, ""))

/-- Modelled from the spec: the standard URL parsing of Node's WHATWG `URL`
class (library code, not part of this repository), simplified to
`scheme://host/path?query#hash`.  Parsing fails when the host is empty;
host/path normalization beyond ASCII lower-casing of the origin is elided. -/
def parseAfterScheme (scheme rest : List Char) : Option URLRec :=
  let hashSplit :=
    match splitFirst '#' rest with
    | some (b, h) => (b, if h.isEmpty then [] else '#' :: h)
    | none => (rest, ([] : List Char))
  let querySplit :=
    match splitFirst '?' hashSplit.1 with
    | some (hp, q) => (hp, q)
    | none => (hashSplit.1, ([] : List Char))
  let hostPath :=
    match splitFirst '/' querySplit.1 with
    | some (h, p) => (h, '/' :: p)
    | none => (querySplit.1, ['/'])
  if hostPath.1.isEmpty then none
  else
    some
      { origin := (List.map lowerAscii (scheme ++ hostPath.1)).asString
        pathname := hostPath.2.asString
        entries := parseQueryEntries querySplit.2
        hash := hashSplit.2.asString }

/-- Modelled from the spec: `new URL(line)` for the `http`/`https` lines the
caller feeds it; `none` models a thrown `Invalid URL` error. -/
def parseURL (cs : List Char) : Option URLRec :=
  if (cs.take 8).map lowerAscii == "https://".data then
    parseAfterScheme (cs.take 8) (cs.drop 8)
  else if (cs.take 7).map lowerAscii == "http://".data then
    parseAfterScheme (cs.take 7) (cs.drop 7)
  else none

/-!
`keyCounts` (extract-paths.js lines 147-150) is a plain JavaScript object
used as a dictionary.  Property reads fall through to `Object.prototype`, so
keys such as `__proto__` or `constructor` do not behave like dictionary
entries; the `JsVal` model keeps just enough structure to reproduce this:
`(kc[k] || 0) + 1` on an inherited truthy non-number produces a non-numeric
string, assigning to `__proto__` is a silent no-op, and `i < v` for a
non-numeric `v` runs the repeat loop zero times.
-/

/-- A JavaScript value stored in (or inherited by) the `keyCounts` object:
a count, a string produced by `+ 1` on a non-number, or a truthy
non-numeric value inherited from `Object.prototype`. -/
inductive JsVal where
  | num (n : Nat)
  | str (s : String)
  | protoObj
  deriving Repr, DecidableEq

/-- The own property names of `Object.prototype` (inherited by `{}`). -/
def protoPropNames : List String :=
  ["constructor", "hasOwnProperty", "isPrototypeOf", "propertyIsEnumerable",
   "toLocaleString", "toString", "valueOf", "__defineGetter__",
   "__defineSetter__", "__lookupGetter__", "__lookupSetter__", "__proto__"]

/-- Property read `obj[k]` on a plain object with own properties `own`:
own property first, otherwise the value inherited from `Object.prototype`
(modelled as `protoObj`), otherwise `undefined` (`none`). -/
def jsObjGet (own : List (String × JsVal)) (k : String) : Option JsVal :=
  match own.find? (fun e => e.1 == k) with
  | some e => some e.2
  | none => if protoPropNames.contains k then some JsVal.protoObj else none

/-- JavaScript truthiness of `obj[k]`. -/
def jsTruthy : Option JsVal → Bool
  | none => false
  | some (JsVal.num n) => n != 0
  | some (JsVal.str s) => !(s == "")
  | some JsVal.protoObj => true

/-- `v + 1`: numeric increment for numbers, string concatenation otherwise
(a non-number coerces to a string; its exact text is irrelevant downstream,
where only `i < v` is applied to it). -/
def jsAdd1 : JsVal → JsVal
  | JsVal.num n => JsVal.num (n + 1)
  | JsVal.str s => JsVal.str (s ++ "1")
  | JsVal.protoObj => JsVal.str "[object Object]1"

/-- Update an own property in place, or append a new one. -/
def setOwn : List (String × JsVal) → String → JsVal → List (String × JsVal)
  | [], k, v => [(k, v)]
  | (k', v') :: t, k, v =>
    if k' == k then (k', v) :: t else (k', v') :: setOwn t k v

/-- Property write `obj[k] = v` on a plain object: writing `__proto__`
invokes the inherited setter, which silently ignores non-object values, so
no own property is created; every other key becomes/overwrites an own
property. -/
def jsObjSet (own : List (String × JsVal)) (k : String) (v : JsVal) :
    List (String × JsVal) :=
  if k == "__proto__" then own else setOwn own k v

/-- One iteration `keyCounts[key] = (keyCounts[key] || 0) + 1` of the
key-counting loop (extract-paths.js line 149). -/
def bumpCount (own : List (String × JsVal)) (k : String) : List (String × JsVal) :=
  jsObjSet own k
    (jsAdd1
      (match jsObjGet own k with
       | some v => if jsTruthy (some v) then v else JsVal.num 0
       | none => JsVal.num 0))

/-- The loop `for (const [key] of entries) keyCounts[key] =
(keyCounts[key] || 0) + 1` (extract-paths.js lines 148-150). -/
def keyCountsOf (keys : List String) : List (String × JsVal) :=
  keys.foldl bumpCount []

/-- `for (let i = 0; i < keyCounts[k]; i++)`: the number of repetitions of
key `k`; a non-numeric stored value compares `NaN`-false, giving zero. -/
def jsCountOf (own : List (String × JsVal)) (k : String) : Nat :=
  match own.find? (fun e => e.1 == k) with
  | some (_, JsVal.num n) => n
  | _ => 0

/-- The value-assignment loop (extract-paths.js lines 158-164): pair each key
of the canonical key sequence with the next placeholder, one global index. -/
def assignPlaceholders : List String → Nat → List (String × String)
  | [], _ => []
  | k :: t, n => (k, magunValue n) :: assignPlaceholders t (n + 1)

/-- The query canonicalization of `processUrlList` (extract-paths.js lines
146-164): count key occurrences in a plain object, sort the object keys
lexicographically (`Object.keys(keyCounts).sort()` - the object reorders
integer-like keys, which the subsequent sort makes irrelevant; JavaScript
sorts by UTF-16 units, which agrees with the Lean order on the Basic
Multilingual Plane), repeat each key by its stored count, and assign
placeholders sequentially. -/
def canonQueryJS (entries : List (String × String)) : List (String × String) :=
  let own := keyCountsOf (entries.map Prod.fst)
  let sortedKeys := List.insertionSort (fun a b => a ≤ b) (own.map Prod.fst)
  let keysWithDupes := sortedKeys.flatMap (fun k => List.replicate (jsCountOf own k) k)
  assignPlaceholders keysWithDupes 0

/-- `canonParams.toString()`: `k=v` pieces joined by `&` (percent-encoding
elided; the placeholder values never need it). -/
def joinQuery : List (String × String) → String
  | [] => ""
  | p :: t => t.foldl (fun acc q => acc ++ "&" ++ q.1 ++ "=" ++ q.2) (p.1 ++ "=" ++ p.2)

/-- Modelled from the spec: the intended canonical-query construction of
section 4.4 - "build a multiset of keys (count occurrences per key name),
then produce a canonical key ordering: keys sorted lexicographically, each
key repeated according to its original occurrence count", placeholders
assigned sequentially.  This is the dictionary semantics the code's plain
JavaScript object was meant to implement; `canonQueryJS` agrees with it
exactly when no query key is an `Object.prototype` property name. -/
def canonQuerySpec (entries : List (String × String)) : List (String × String) :=
  let keys := entries.map Prod.fst
  let sortedKeys := List.insertionSort (fun a b => a ≤ b) (firstDedup keys)
  let keysWithDupes := sortedKeys.flatMap (fun k => List.replicate (keys.count k) k)
  assignPlaceholders keysWithDupes 0

/-- One iteration of the line loop of `processUrlList` (extract-paths.js
lines 133-173): `some finalUrl` when the line contributes a URL to the
output set, `none` when it is skipped (blank, wrong scheme, no `?`, parse
failure, or no query entries).  No per-line diagnostic exists in the code;
correspondingly the model returns only the contribution. -/
def processLine (line : String) : Option String :=
  let trimmed := jsTrim line.data
  if trimmed.isEmpty then none
  else if !startsHttp trimmed then none
  else if !trimmed.contains '?' then none
  else
    match parseURL trimmed with
    | none => none
    | some u =>
      if u.entries.isEmpty then none
      else
        let canonSearch := joinQuery (canonQueryJS u.entries)
        some (u.origin ++ u.pathname ++
              (if canonSearch == "" then "" else "?" ++ canonSearch) ++ u.hash)

/-- `processUrlList` over the (already split) lines: the deduplicated output
set in insertion order, or `none` when no line qualified (in which case the
code prints a message and writes no file). -/
def processUrlList (lines : List String) : Option (List String) :=
  let out := firstDedup (lines.filterMap processLine)
  if out.isEmpty then none else some out

/-!
## Filesystem model and extraction mode (`getAllJsFiles`, `main`)

The filesystem is a finite in-memory tree (sequential, no symbolic links or
concurrent modification).  Paths are segment lists; `path.join(dir, item)`
appends a segment.  `fs.existsSync` and `fs.statSync` are resolutions in the
tree; `fs.readdirSync` lists the entry names of a directory and throws
(`Except.error`) on a file or a missing path; `fs.statSync` throws on a
missing path.
-/

/-- A filesystem node: a file with content, or a directory with named
entries. -/
inductive FSNode where
  | file (content : String)
  | dir (entries : List (String × FSNode))

/-- Resolve a path, segment by segment, from a node. -/
def lookup : FSNode → List String → Option FSNode
  | n, [] => some n
  | FSNode.file _, _ :: _ => none
  | FSNode.dir es, seg :: rest =>
    match es.find? (fun e => e.1 == seg) with
    | some e => lookup e.2 rest
    | none => none

/-- `fs.statSync(path.join(dir, name))` for a name obtained from
`fs.readdirSync(dir)`: resolve the name among the entries of the directory;
a missing name throws. -/
def statInEntries (es : List (String × FSNode)) (name : String) :
    Except String FSNode :=
  match es.find? (fun e => e.1 == name) with
  | some e => Except.ok e.2
  | none => Except.error "ENOENT: statSync failed"

/-- `item.endsWith('.js')` (extract-paths.js line 49). -/
def hasJsSuffix (name : String) : Bool :=
  ['.', 'j', 's'].isSuffixOf name.data

/-- Resolving a listed name yields a node strictly smaller than the entry
list, which justifies the recursion of `walkNames`. -/
theorem statInEntries_sizeOf {es : List (String × FSNode)} {name : String}
    {n : FSNode} (h : statInEntries es name = Except.ok n) :
    sizeOf n < sizeOf es := by
  unfold statInEntries at h
  cases hf : es.find? (fun e => e.1 == name) with
  | none => rw [hf] at h; cases h
  | some e =>
    rw [hf] at h
    have hn : e.2 = n := by simpa using h
    have he : e ∈ es := List.mem_of_find?_eq_some hf
    have hlt : sizeOf e < sizeOf es := List.sizeOf_lt_of_mem he
    obtain ⟨a, b⟩ := e
    simp only at hn
    subst hn
    simp only [Prod.mk.sizeOf_spec] at hlt
    omega

/-- The body of `getAllJsFiles` (extract-paths.js lines 41-52): iterate over
the names returned by `readdirSync`, `statSync` each, recurse into
directories (the recursive call re-checks existence, which holds, and
re-lists the directory), collect `.js` file paths.  Any thrown error
propagates (there is no try/catch in this function). -/
def walkNames (p : List String) (es : List (String × FSNode)) :
    List String → Except String (List (List String))
  | [] => Except.ok []
  | name :: rest =>
    match h : statInEntries es name with
    | Except.error e => Except.error e
    | Except.ok (FSNode.dir es') =>
      match walkNames (p ++ [name]) es' (es'.map Prod.fst) with
      | Except.error e => Except.error e
      | Except.ok sub =>
        match walkNames p es rest with
        | Except.error e => Except.error e
        | Except.ok more => Except.ok (sub ++ more)
    | Except.ok (FSNode.file _) =>
      match walkNames p es rest with
      | Except.error e => Except.error e
      | Except.ok more =>
        Except.ok ((if hasJsSuffix name then [p ++ [name]] else []) ++ more)
termination_by names => (sizeOf es, names.length)
decreasing_by
  · apply Prod.Lex.left
    have h1 := statInEntries_sizeOf h
    have h2 : sizeOf (FSNode.dir es') = 1 + sizeOf es' := by simp
    omega
  · apply Prod.Lex.right
    simp
  · apply Prod.Lex.right
    simp

/-- `path.join` on segment paths, for diagnostic messages. -/
def joinPath (p : List String) : String :=
  String.intercalate "/" p

/-- `getAllJsFiles(dir)` (extract-paths.js lines 33-55): if the directory
does not exist, print a diagnostic and return the empty list; otherwise list
it (throwing on a file) and walk it.  Returns the diagnostics printed and
the result. -/
def getAllJsFiles (root : FSNode) (dir : List String) :
    List String × Except String (List (List String)) :=
  match lookup root dir with
  | none => (["Error: Directory " ++ joinPath dir ++ " does not exist"], Except.ok [])
  | some (FSNode.file _) => ([], Except.error "ENOTDIR: readdirSync on a file")
  | some (FSNode.dir es) => ([], walkNames dir es (es.map Prod.fst))

/-- `fs.readFileSync(file, 'utf8')`: the content of a file node; throws on a
missing path or a directory. -/
def readFile (root : FSNode) (p : List String) : Except String String :=
  match lookup root p with
  | some (FSNode.file c) => Except.ok c
  | _ => Except.error "read error"

/-- The accumulation `allPaths` of `main` (extract-paths.js lines 218-233):
extracted paths of every readable file, added to one global `Set` in file
order (per-file read errors are caught and only logged). -/
def allPathsOf (contents : List String) : List String :=
  firstDedup (contents.flatMap (fun c => extractPaths c))

/-- `Array.from(allPaths).sort()` (extract-paths.js line 240): the sorted
deduplicated template list written to `paths.txt`. -/
def pathsArrayOf (contents : List String) : List String :=
  List.insertionSort (fun a b => a ≤ b) (allPathsOf contents)

/-- `[...new Set(pathsArray.map(p => replacePaths(p, domain)))]`
(extract-paths.js line 248): the deduplicated URL list written to
`CSPT_magun4.txt`. -/
def csptUrlsOf (contents : List String) (domain : String) : List String :=
  firstDedup ((pathsArrayOf contents).map (fun p => replacePaths p domain))

/-- The observable outcome of an extraction-mode run: the lines written to
`paths.txt` and `CSPT_magun4.txt` (`none` when the file is not written), the
progress/diagnostic lines (per-file progress lines and the leading
`Scanning`/`Domain` banner are elided), the exit code, and whether the run
died on an uncaught exception. -/
structure RunResult where
  paths_txt : Option (List String)
  cspt_txt : Option (List String)
  messages : List String
  exitCode : Nat
  crashed : Bool
  deriving DecidableEq

/-- Extraction mode of `main` (extract-paths.js lines 212-253): collect the
`.js` files, read each (read errors are caught per file), extract and
accumulate templates; when none are found print
`No paths with parameters found!` and return (exit code 0, nothing written);
otherwise write the sorted template list and the deduplicated substituted
URL list. -/
def mainExtract (root : FSNode) (dir : List String) (domain : String) :
    RunResult :=
  match getAllJsFiles root dir with
  | (diags, Except.error e) =>
    { paths_txt := none, cspt_txt := none,
      messages := diags ++ ["uncaught: " ++ e], exitCode := 1, crashed := true }
  | (diags, Except.ok files) =>
    let contents := files.filterMap
      (fun f => match readFile root f with
                | Except.ok c => some c
                | Except.error _ => none)
    let allPaths := allPathsOf contents
    let found := "Found " ++ toString files.length ++ " JS file(s)"
    if allPaths.isEmpty then
      { paths_txt := none, cspt_txt := none,
        messages := diags ++ [found, "No paths with parameters found!"],
        exitCode := 0, crashed := false }
    else
      let pathsArray := List.insertionSort (fun a b => a ≤ b) allPaths
      let cspt := firstDedup (pathsArray.map (fun p => replacePaths p domain))
      { paths_txt := some pathsArray, cspt_txt := some cspt,
        messages := diags ++
          [found,
           "Created paths.txt with " ++ toString pathsArray.length ++ " path(s)",
           "Created CSPT_magun4.txt with " ++ toString cspt.length ++ " URL(s)"],
        exitCode := 0, crashed := false }

/-!
## Template decompositions (for stating the substitution claims)

A template is decomposed as `s0 ++ ":p1" ++ s1 ++ ... ++ ":pk" ++ sk`: the
marked occurrences are exactly the matches of `:([a-zA-Z0-9_]+)` when every
`si` is colon-free, every name `pi` is a nonempty identifier run, and no
`si` (for `i ≥ 1`) starts with an identifier character (so each name run is
maximal).
-/

/-- No colon occurs in the segment, so the substitution regex cannot start a
match inside it. -/
def colonFree (s : List Char) : Bool :=
  s.all (fun c => !(c == ':'))

/-- Every character is an identifier character: a well-formed parameter name
for the substitution regex. -/
def allIdentChars (p : List Char) : Bool :=
  p.all isIdent

/-- The segment does not begin with an identifier character, so a preceding
parameter-name run ends exactly before it. -/
def headNotIdent (s : List Char) : Bool :=
  match s.head? with
  | some c => !isIdent c
  | none => true

/-- A parameter/segment pair `(p, s)` of a template decomposition is
well-formed. -/
def segOK (e : List Char × List Char) : Bool :=
  !e.1.isEmpty && allIdentChars e.1 && colonFree e.2 && headNotIdent e.2

/-- Build `s0 ++ ":p1" ++ s1 ++ ":p2" ++ s2 ++ ...`: a template with its
parameter occurrences marked. -/
def mkTemplate : List Char → List (List Char × List Char) → List Char
  | s0, [] => s0
  | s0, (p, s) :: t => s0 ++ ':' :: (p ++ mkTemplate s t)

/-- The substituted form of `mkTemplate`: each `:pi` replaced by the
placeholder whose index counts the parameters already substituted. -/
def mkResult : Nat → List Char → List (List Char × List Char) → List Char
  | _, s0, [] => s0
  | n, s0, (p, s) :: t => s0 ++ (magunValue n).data ++ mkResult (n + 1) s t

/-!
## Helper lemmas: deduplication and the no-op wildcard cleanup
-/

theorem dedupAcc_mem {α : Type} [DecidableEq α] (seen l : List α) (a : α) :
    a ∈ dedupAcc seen l ↔ a ∈ l ∧ a ∉ seen := by
  induction l generalizing seen with
  | nil => simp [dedupAcc]
  | cons x xs ih =>
    by_cases hx : x ∈ seen
    · rw [dedupAcc, if_pos hx, ih]
      constructor
      · rintro ⟨ha, hs⟩
        exact ⟨List.mem_cons_of_mem _ ha, hs⟩
      · rintro ⟨ha, hs⟩
        rcases List.mem_cons.mp ha with rfl | ha
        · exact absurd hx hs
        · exact ⟨ha, hs⟩
    · rw [dedupAcc, if_neg hx]
      constructor
      · intro hmem
        rcases List.mem_cons.mp hmem with rfl | hmem
        · exact ⟨List.mem_cons_self _ _, hx⟩
        · rw [ih] at hmem
          obtain ⟨ha, hs⟩ := hmem
          exact ⟨List.mem_cons_of_mem _ ha, fun hc => hs (List.mem_cons_of_mem _ hc)⟩
      · rintro ⟨ha, hs⟩
        rcases List.mem_cons.mp ha with rfl | ha
        · exact List.mem_cons_self _ _
        · by_cases hax : a = x
          · subst hax
            exact List.mem_cons_self _ _
          · refine List.mem_cons_of_mem _ ?_
            rw [ih]
            exact ⟨ha, fun hc => (List.mem_cons.mp hc).elim hax hs⟩

theorem dedupAcc_nodup {α : Type} [DecidableEq α] (seen l : List α) :
    (dedupAcc seen l).Nodup := by
  induction l generalizing seen with
  | nil => simp [dedupAcc]
  | cons x xs ih =>
    by_cases hx : x ∈ seen
    · rw [dedupAcc, if_pos hx]
      exact ih seen
    · rw [dedupAcc, if_neg hx]
      refine List.nodup_cons.mpr ⟨?_, ih _⟩
      intro hc
      rw [dedupAcc_mem] at hc
      exact hc.2 (List.mem_cons_self _ _)

theorem dedupAcc_sublist {α : Type} [DecidableEq α] (seen l : List α) :
    (dedupAcc seen l).Sublist l := by
  induction l generalizing seen with
  | nil => simp [dedupAcc]
  | cons x xs ih =>
    by_cases hx : x ∈ seen
    · rw [dedupAcc, if_pos hx]
      exact (ih seen).trans (List.sublist_cons_self x xs)
    · rw [dedupAcc, if_neg hx]
      exact List.Sublist.cons₂ x (ih _)

theorem firstDedup_mem {α : Type} [DecidableEq α] (l : List α) (a : α) :
    a ∈ firstDedup l ↔ a ∈ l := by
  rw [firstDedup, dedupAcc_mem]
  simp

theorem firstDedup_nodup {α : Type} [DecidableEq α] (l : List α) :
    (firstDedup l).Nodup :=
  dedupAcc_nodup [] l

theorem firstDedup_sublist {α : Type} [DecidableEq α] (l : List α) :
    (firstDedup l).Sublist l :=
  dedupAcc_sublist [] l

theorem cleanPath_id (p : List Char) : cleanPath p = p := by
  unfold cleanPath
  split
  · next h =>
    rw [List.isSuffixOf_iff_suffix] at h
    obtain ⟨pre, rfl⟩ := h
    have hlen : (pre ++ ['/', '*']).length - 2 = pre.length := by
      simp
    rw [hlen, List.take_left]
  · rfl

/-!
## The shape of scanner matches

Every capture group of the extraction regex consists of path characters and
sits between two quote characters (of possibly different kinds) in the
input; this is proved by following each stage of the matcher.
-/

theorem isC_isPathChar {c : Char} (h : isC c = true) : isPathChar c = true := by
  simp only [isC, isB, isPathChar, Bool.or_eq_true, beq_iff_eq] at h ⊢
  tauto

theorem isA_isPathChar {c : Char} (h : isA c = true) : isPathChar c = true := by
  simp only [isA, isPathChar, Bool.or_eq_true, beq_iff_eq] at h ⊢
  tauto

theorem matchLazyC_spec :
    ∀ {cs g r : List Char}, matchLazyC cs = some (g, r) →
      (∀ c ∈ g, isC c = true) ∧ ∃ q, isQuote q = true ∧ cs = g ++ q :: r := by
  intro cs
  induction cs with
  | nil =>
    intro g r h
    simp [matchLazyC] at h
  | cons c rest ih =>
    intro g r h
    rw [matchLazyC] at h
    by_cases hq : isQuote c
    · rw [if_pos hq] at h
      simp only [Option.some.injEq, Prod.mk.injEq] at h
      obtain ⟨rfl, rfl⟩ := h
      exact ⟨by simp, c, hq, rfl⟩
    · rw [if_neg hq] at h
      by_cases hc : isC c
      · rw [if_pos hc] at h
        cases hm : matchLazyC rest with
        | none => rw [hm] at h; cases h
        | some p =>
          obtain ⟨g', r'⟩ := p
          rw [hm] at h
          simp only [Option.some.injEq, Prod.mk.injEq] at h
          obtain ⟨rfl, rfl⟩ := h
          obtain ⟨hchars, q, hq2, heq⟩ := ih hm
          refine ⟨?_, q, hq2, by rw [heq]; simp⟩
          intro x hx
          rcases List.mem_cons.mp hx with rfl | hx
          · exact hc
          · exact hchars x hx
      · rw [if_neg hc] at h
        cases h

theorem matchBC_spec :
    ∀ {cs g r : List Char}, matchBC cs = some (g, r) →
      (∀ c ∈ g, isC c = true) ∧ ∃ q, isQuote q = true ∧ cs = g ++ q :: r := by
  intro cs g r h
  cases cs with
  | nil => simp [matchBC] at h
  | cons c rest =>
    rw [matchBC] at h
    by_cases hb : isB c
    · rw [if_pos hb] at h
      cases hm : matchLazyC rest with
      | none => rw [hm] at h; cases h
      | some p =>
        obtain ⟨g', r'⟩ := p
        rw [hm] at h
        simp only [Option.some.injEq, Prod.mk.injEq] at h
        obtain ⟨rfl, rfl⟩ := h
        obtain ⟨hchars, q, hq2, heq⟩ := matchLazyC_spec hm
        refine ⟨?_, q, hq2, by rw [heq]; simp⟩
        intro x hx
        rcases List.mem_cons.mp hx with rfl | hx
        · simp [isC, hb]
        · exact hchars x hx
    · rw [if_neg hb] at h
      cases h

theorem tryHere_spec :
    ∀ {cs g r : List Char}, tryHere cs = some (g, r) →
      (∀ c ∈ g, isPathChar c = true) ∧ ∃ q, isQuote q = true ∧ cs = g ++ q :: r := by
  intro cs g r h
  match cs with
  | [] => simp [tryHere] at h
  | [c] => simp [tryHere] at h
  | c1 :: c2 :: rest =>
    rw [tryHere] at h
    by_cases hg : c1 == '/' && c2 == ':'
    · rw [if_pos hg] at h
      cases hm : matchBC rest with
      | none => rw [hm] at h; cases h
      | some p =>
        obtain ⟨g', r'⟩ := p
        rw [hm] at h
        simp only [Option.some.injEq, Prod.mk.injEq] at h
        obtain ⟨rfl, rfl⟩ := h
        obtain ⟨hchars, q, hq2, heq⟩ := matchBC_spec hm
        simp only [Bool.and_eq_true, beq_iff_eq] at hg
        obtain ⟨rfl, rfl⟩ := hg
        refine ⟨?_, q, hq2, by rw [heq]; simp⟩
        intro x hx
        rcases List.mem_cons.mp hx with rfl | hx
        · decide
        · rcases List.mem_cons.mp hx with rfl | hx
          · decide
          · exact isC_isPathChar (hchars x hx)
    · rw [if_neg hg] at h
      cases h

theorem matchA_spec :
    ∀ {cs g r : List Char}, matchA cs = some (g, r) →
      (∀ c ∈ g, isPathChar c = true) ∧ ∃ q, isQuote q = true ∧ cs = g ++ q :: r := by
  intro cs
  induction cs with
  | nil =>
    intro g r h
    simp [matchA] at h
  | cons c rest ih =>
    intro g r h
    rw [matchA] at h
    by_cases ha : isA c
    · rw [if_pos ha] at h
      cases hm : matchA rest with
      | none =>
        rw [hm] at h
        exact tryHere_spec h
      | some p =>
        obtain ⟨g', r'⟩ := p
        rw [hm] at h
        simp only [Option.some.injEq, Prod.mk.injEq] at h
        obtain ⟨rfl, rfl⟩ := h
        obtain ⟨hchars, q, hq2, heq⟩ := ih hm
        refine ⟨?_, q, hq2, by rw [heq]; simp⟩
        intro x hx
        rcases List.mem_cons.mp hx with rfl | hx
        · exact isA_isPathChar ha
        · exact hchars x hx
    · rw [if_neg ha] at h
      exact tryHere_spec h

theorem tryMatchAt_spec :
    ∀ {cs g r : List Char}, tryMatchAt cs = some (g, r) →
      (∀ c ∈ g, isPathChar c = true) ∧
      ∃ q1 q2, isQuote q1 = true ∧ isQuote q2 = true ∧ cs = q1 :: (g ++ q2 :: r) := by
  intro cs g r h
  match cs with
  | [] => simp [tryMatchAt] at h
  | [c] => simp [tryMatchAt] at h
  | q :: c2 :: rest =>
    rw [tryMatchAt] at h
    by_cases hg : isQuote q && c2 == '/'
    · rw [if_pos hg] at h
      cases hm : matchA rest with
      | none => rw [hm] at h; cases h
      | some p =>
        obtain ⟨g', r'⟩ := p
        rw [hm] at h
        simp only [Option.some.injEq, Prod.mk.injEq] at h
        obtain ⟨rfl, rfl⟩ := h
        obtain ⟨hchars, q2', hq2, heq⟩ := matchA_spec hm
        simp only [Bool.and_eq_true, beq_iff_eq] at hg
        obtain ⟨hq1, rfl⟩ := hg
        refine ⟨?_, q, q2', hq1, hq2, by rw [heq]; simp⟩
        intro x hx
        rcases List.mem_cons.mp hx with rfl | hx
        · decide
        · exact hchars x hx
    · rw [if_neg hg] at h
      cases h

theorem scanPathsF_spec :
    ∀ (fuel : Nat) {cs : List Char} {g : List Char}, g ∈ scanPathsF fuel cs →
      (∀ c ∈ g, isPathChar c = true) ∧
      ∃ pre q1 q2 suf, isQuote q1 = true ∧ isQuote q2 = true ∧
        cs = pre ++ q1 :: (g ++ q2 :: suf) := by
  intro fuel
  induction fuel with
  | zero =>
    intro cs g h
    simp [scanPathsF] at h
  | succ fuel ih =>
    intro cs g h
    match cs with
    | [] => simp [scanPathsF] at h
    | c :: rest =>
      rw [scanPathsF] at h
      cases hm : tryMatchAt (c :: rest) with
      | none =>
        rw [hm] at h
        obtain ⟨hchars, pre, q1, q2, suf, hq1, hq2, heq⟩ := ih h
        exact ⟨hchars, c :: pre, q1, q2, suf, hq1, hq2, by rw [heq]; simp⟩
      | some p =>
        obtain ⟨g', r⟩ := p
        rw [hm] at h
        rcases List.mem_cons.mp h with rfl | h
        · obtain ⟨hchars, q1, q2, hq1, hq2, heq⟩ := tryMatchAt_spec hm
          exact ⟨hchars, [], q1, q2, r, hq1, hq2, heq⟩
        · obtain ⟨hchars, pre, q1, q2, suf, hq1, hq2, heq⟩ := ih h
          obtain ⟨hchars2, q1', q2', hq1', hq2', heq'⟩ := tryMatchAt_spec hm
          refine ⟨hchars, q1' :: (g' ++ q2' :: pre), q1, q2, suf, hq1, hq2, ?_⟩
          rw [heq', heq]
          simp

/-- Unfolding membership in `extractPaths`: an output string is a capture of
the scanner that passes the validation filter. -/
theorem extractPaths_mem {content s : String} (h : s ∈ extractPaths content) :
    s.data ∈ scanPathsF content.data.length content.data ∧ validPath s.data = true := by
  unfold extractPaths at h
  obtain ⟨q, hq, rfl⟩ := List.mem_map.mp h
  rw [firstDedup_mem] at hq
  obtain ⟨q₀, hq₀, rfl⟩ := List.mem_map.mp hq
  rw [cleanPath_id]
  have hdata : (List.asString q₀).data = q₀ := rfl
  rw [hdata]
  unfold scanPaths at hq₀
  exact ⟨(List.mem_filter.mp hq₀).1, (List.mem_filter.mp hq₀).2⟩

/-- C3: every string returned by `extractPaths` starts with `/`, contains
`/:`, consists only of letters, digits, `-`, `_`, `/`, `*`, `:`, contains
none of space, parentheses, brackets, backslash, pipe, or the sequence `?!`,
has length strictly between 2 and 200, and contains a parameter marker `/:`
followed by a letter. -/
theorem extractPaths_output_shape (content s : String) (h : s ∈ extractPaths content) :
    startsWithSlash s.data = true ∧
    containsSeq ['/', ':'] s.data = true ∧
    (∀ c ∈ s.data, isPathChar c = true) ∧
    s.data.contains ' ' = false ∧
    s.data.contains '(' = false ∧
    s.data.contains ')' = false ∧
    s.data.contains '[' = false ∧
    s.data.contains ']' = false ∧
    s.data.contains '\\' = false ∧
    containsSeq ['?', '!'] s.data = false ∧
    s.data.contains '|' = false ∧
    2 < s.data.length ∧ s.data.length < 200 ∧
    hasParamMarker s.data = true := by
  obtain ⟨hscan, hvalid⟩ := extractPaths_mem h
  have hchars := (scanPathsF_spec _ hscan).1
  simp only [validPath, Bool.and_eq_true, Bool.not_eq_true', decide_eq_true_eq] at hvalid
  obtain ⟨⟨⟨⟨⟨⟨⟨⟨⟨⟨⟨⟨h1, h2⟩, h3⟩, h4⟩, h5⟩, h6⟩, h7⟩, h8⟩, h9⟩, h10⟩, h11⟩, h12⟩, h13⟩ := hvalid
  exact ⟨h1, h2, hchars, h3, h4, h5, h6, h7, h8, h9, h10, h11, h12, h13⟩

/-- Witness for C3 at the file content `'/a/:b'`. -/
theorem extractPaths_output_shape_witness :
    startsWithSlash (String.mk ['/', 'a', '/', ':', 'b']).data = true ∧
    containsSeq ['/', ':'] (String.mk ['/', 'a', '/', ':', 'b']).data = true ∧
    (∀ c ∈ (String.mk ['/', 'a', '/', ':', 'b']).data, isPathChar c = true) ∧
    (String.mk ['/', 'a', '/', ':', 'b']).data.contains ' ' = false ∧
    (String.mk ['/', 'a', '/', ':', 'b']).data.contains '(' = false ∧
    (String.mk ['/', 'a', '/', ':', 'b']).data.contains ')' = false ∧
    (String.mk ['/', 'a', '/', ':', 'b']).data.contains '[' = false ∧
    (String.mk ['/', 'a', '/', ':', 'b']).data.contains ']' = false ∧
    (String.mk ['/', 'a', '/', ':', 'b']).data.contains '\\' = false ∧
    containsSeq ['?', '!'] (String.mk ['/', 'a', '/', ':', 'b']).data = false ∧
    (String.mk ['/', 'a', '/', ':', 'b']).data.contains '|' = false ∧
    2 < (String.mk ['/', 'a', '/', ':', 'b']).data.length ∧
    (String.mk ['/', 'a', '/', ':', 'b']).data.length < 200 ∧
    hasParamMarker (String.mk ['/', 'a', '/', ':', 'b']).data = true :=
  extractPaths_output_shape (String.mk ['\'', '/', 'a', '/', ':', 'b', '\''])
    (String.mk ['/', 'a', '/', ':', 'b']) (by decide)

/-- C5 counterexample: the input consisting of `/a/:b` enclosed between a
double quote and a single quote contains no two equal quote characters at
all, yet `/a/:b` is extracted - the regex does not require the opening and
closing quote to match. -/
theorem extractPaths_mismatched_quotes :
    extractPaths (String.mk ['"', '/', 'a', '/', ':', 'b', '\'']) =
      [String.mk ['/', 'a', '/', ':', 'b']] ∧
    (String.mk ['"', '/', 'a', '/', ':', 'b', '\'']).data.count '"' = 1 ∧
    (String.mk ['"', '/', 'a', '/', ':', 'b', '\'']).data.count '\'' = 1 ∧
    (String.mk ['"', '/', 'a', '/', ':', 'b', '\'']).data.count (Char.ofNat 96) = 0 := by
  decide

/-- C5 (amended): every extracted path comes from an occurrence delimited on
each side by a quote character (single quote, double quote, or backtick),
but the opening and closing quote characters need not be equal. -/
theorem extractPaths_quote_delimited (content s : String) (h : s ∈ extractPaths content) :
    ∃ pre q1 q2 suf, isQuote q1 = true ∧ isQuote q2 = true ∧
      content.data = pre ++ q1 :: (s.data ++ q2 :: suf) := by
  obtain ⟨hscan, _⟩ := extractPaths_mem h
  obtain ⟨_, pre, q1, q2, suf, hq1, hq2, heq⟩ := scanPathsF_spec _ hscan
  exact ⟨pre, q1, q2, suf, hq1, hq2, heq⟩

/-- Witness for the amended C5 at the file content `'/a/:b'`. -/
theorem extractPaths_quote_delimited_witness :
    ∃ pre q1 q2 suf, isQuote q1 = true ∧ isQuote q2 = true ∧
      (String.mk ['\'', '/', 'a', '/', ':', 'b', '\'']).data =
        pre ++ q1 :: ((String.mk ['/', 'a', '/', ':', 'b']).data ++ q2 :: suf) :=
  extractPaths_quote_delimited (String.mk ['\'', '/', 'a', '/', ':', 'b', '\''])
    (String.mk ['/', 'a', '/', ':', 'b']) (by decide)

/-!
## Substitution lemmas (C1, C10)
-/

theorem substParamsF_nil (fuel n : Nat) : substParamsF fuel [] n = [] := by
  cases fuel <;> rfl

theorem substParamsF_add (k : Nat) :
    ∀ (fuel : Nat) (cs : List Char) (n : Nat), cs.length ≤ fuel →
      substParamsF (fuel + k) cs n = substParamsF fuel cs n := by
  intro fuel
  induction fuel with
  | zero =>
    intro cs n h
    have hnil : cs = [] := List.eq_nil_of_length_eq_zero (Nat.le_zero.mp h)
    subst hnil
    rw [substParamsF_nil, substParamsF_nil]
  | succ fuel ih =>
    intro cs n h
    cases cs with
    | nil => rw [substParamsF_nil, substParamsF_nil]
    | cons c rest =>
      have hr : rest.length ≤ fuel := by simpa using h
      have hstep : fuel + 1 + k = (fuel + k) + 1 := by omega
      rw [hstep, substParamsF, substParamsF]
      by_cases hcond : (c == ':' && headIsIdent rest) = true
      · rw [if_pos hcond, if_pos hcond]
        congr 1
        exact ih _ _ (le_trans ((List.dropWhile_suffix isIdent).sublist.length_le) hr)
      · rw [if_neg hcond, if_neg hcond]
        congr 1
        exact ih _ _ hr

/-- The fuel of `substParamsF` is irrelevant once it covers the input. -/
theorem substParamsF_ge (fuel : Nat) (cs : List Char) (n : Nat)
    (h : cs.length ≤ fuel) : substParamsF fuel cs n = substParams cs n := by
  rw [substParams]
  obtain ⟨k, rfl⟩ : ∃ k, fuel = cs.length + k := ⟨fuel - cs.length, by omega⟩
  rw [Nat.add_comm cs.length k]
  rw [show k + cs.length = cs.length + k from Nat.add_comm k cs.length]
  exact substParamsF_add k cs.length cs n (Nat.le_refl _)

/-- A character that does not start a parameter match is copied. -/
theorem substParams_cons_ne (c : Char) (cs : List Char) (n : Nat)
    (hc : (c == ':' && headIsIdent cs) = false) :
    substParams (c :: cs) n = c :: substParams cs n := by
  rw [substParams]
  simp only [List.length_cons]
  rw [substParamsF, hc]
  rfl

/-- A colon-free prefix is copied verbatim. -/
theorem substParams_append_colonFree (s : List Char) (rest : List Char) (n : Nat)
    (hs : colonFree s = true) :
    substParams (s ++ rest) n = s ++ substParams rest n := by
  induction s with
  | nil => simp
  | cons c s ih =>
    rw [colonFree, List.all_cons, Bool.and_eq_true] at hs
    have hc : (c == ':') = false := by
      cases hcc : c == ':'
      · rfl
      · rw [hcc] at hs
        exact absurd hs.1 (by simp)
    rw [List.cons_append, substParams_cons_ne c _ n (by rw [hc]; rfl),
      ih hs.2, List.cons_append]

/-- A colon-free string is left unchanged by the substitution. -/
theorem substParams_colonFree_id (s : List Char) (n : Nat)
    (hs : colonFree s = true) : substParams s n = s := by
  have h := substParams_append_colonFree s [] n hs
  rw [List.append_nil] at h
  rw [h, show substParams [] n = [] from rfl, List.append_nil]

/-- A marked parameter occurrence is replaced by the placeholder of the
running index, and scanning continues after its (maximal) name run. -/
theorem substParams_param (p rest : List Char) (n : Nat)
    (hp : p ≠ []) (hid : allIdentChars p = true) (hrest : headNotIdent rest = true) :
    substParams (':' :: (p ++ rest)) n =
      (magunValue n).data ++ substParams rest (n + 1) := by
  obtain ⟨c, p', rfl⟩ : ∃ c p', p = c :: p' := by
    cases p with
    | nil => exact absurd rfl hp
    | cons c p' => exact ⟨c, p', rfl⟩
  rw [allIdentChars, List.all_cons, Bool.and_eq_true] at hid
  have hcond : (':' == ':' && headIsIdent ((c :: p') ++ rest)) = true := by
    simp [headIsIdent, hid.1]
  have hdrop : ∀ (q : List Char), q.all isIdent = true →
      (q ++ rest).dropWhile isIdent = rest := by
    intro q hq
    induction q with
    | nil =>
      cases rest with
      | nil => rfl
      | cons r rs =>
        rw [headNotIdent] at hrest
        simp only [List.head?_cons] at hrest
        rw [List.nil_append, List.dropWhile_cons]
        rw [show isIdent r = false by simpa using hrest]
        rfl
    | cons x q ihq =>
      rw [List.all_cons, Bool.and_eq_true] at hq
      rw [List.cons_append, List.dropWhile_cons, hq.1]
      exact ihq hq.2
  rw [substParams]
  simp only [List.length_cons]
  rw [substParamsF, hcond]
  simp only [if_true]
  rw [hdrop (c :: p') (by rw [List.all_cons, Bool.and_eq_true]; exact ⟨hid.1, hid.2⟩)]
  congr 1
  exact substParamsF_ge _ _ _ (by simp; omega)

/-- The head of `mkTemplate s t` is not an identifier character when the
head of `s` is not (a following template starts with `:`). -/
theorem headNotIdent_mkTemplate (s : List Char) (t : List (List Char × List Char))
    (h : headNotIdent s = true) : headNotIdent (mkTemplate s t) = true := by
  cases s with
  | cons c s' =>
    cases t with
    | nil => exact h
    | cons e t' =>
      obtain ⟨p, s2⟩ := e
      rw [mkTemplate]
      rw [headNotIdent] at h ⊢
      simpa using h
  | nil =>
    cases t with
    | nil => rfl
    | cons e t' =>
      obtain ⟨p, s2⟩ := e
      rw [mkTemplate]
      rfl

/-- Substitution over a full template decomposition, with a running index. -/
theorem substParams_mkTemplate (ps : List (List Char × List Char)) :
    ∀ (s0 : List Char) (n : Nat), colonFree s0 = true →
      (∀ e ∈ ps, segOK e = true) →
      substParams (mkTemplate s0 ps) n = mkResult n s0 ps := by
  induction ps with
  | nil =>
    intro s0 n h0 _
    rw [mkTemplate, mkResult]
    exact substParams_colonFree_id s0 n h0
  | cons e t ih =>
    intro s0 n h0 hall
    obtain ⟨p, s⟩ := e
    have he := hall _ (List.mem_cons_self _ _)
    rw [segOK, Bool.and_eq_true, Bool.and_eq_true, Bool.and_eq_true] at he
    obtain ⟨⟨⟨hp, hid⟩, hcf⟩, hhead⟩ := he
    have hpne : p ≠ [] := by
      cases p with
      | nil => simp at hp
      | cons a b => simp
    rw [mkTemplate, mkResult]
    rw [substParams_append_colonFree _ _ _ h0]
    rw [substParams_param p (mkTemplate s t) n hpne hid
      (headNotIdent_mkTemplate s t hhead)]
    rw [ih s (n + 1) hcf (fun e' he' => hall _ (List.mem_cons_of_mem _ he'))]
    rw [List.append_assoc]

/-- C1: substituting a template whose parameter occurrences are exactly the
marked ones (`mkTemplate`) replaces the N-th occurrence (0-indexed, left to
right) of `:` followed by a nonempty identifier run by `magun4` for N = 0
and `magun4_N` otherwise, regardless of the parameter names; the index
starts at 0 on every call of the substitution (as `replacePaths` does). -/
theorem substParams_placeholder_sequence (s0 : List Char)
    (ps : List (List Char × List Char)) (h0 : colonFree s0 = true)
    (hps : ∀ e ∈ ps, segOK e = true) :
    substParams (mkTemplate s0 ps) 0 = mkResult 0 s0 ps :=
  substParams_mkTemplate ps s0 0 h0 hps

/-- Witness for C1 at the template `/user/:userId/post/:postId`. -/
theorem substParams_placeholder_sequence_witness :
    substParams
      (mkTemplate "/user/".data [("userId".data, "/post/".data), ("postId".data, [])]) 0 =
    mkResult 0 "/user/".data [("userId".data, "/post/".data), ("postId".data, [])] :=
  substParams_placeholder_sequence "/user/".data
    [("userId".data, "/post/".data), ("postId".data, [])] (by decide) (by decide)

/-- C10: the substitution regex class `[a-zA-Z0-9_]+` stops at a hyphen, so
for a parameter name containing `-` only the maximal identifier run after
`:` is replaced and the hyphen with everything after it stays verbatim; in
particular `/x/:user-id` becomes `domain ++ /x/magun4-id`, and the extractor
does accept the template `/x/:user-id`. -/
theorem substParams_hyphen_stops (s0 p rest : List Char) (n : Nat)
    (h0 : colonFree s0 = true) (hp : p ≠ []) (hid : allIdentChars p = true)
    (hrest : colonFree rest = true) :
    substParams (s0 ++ ':' :: (p ++ '-' :: rest)) n =
      s0 ++ ((magunValue n).data ++ '-' :: rest) ∧
    replacePaths "/x/:user-id" "https://ex.com" = "https://ex.com/x/magun4-id" ∧
    "/x/:user-id" ∈ extractPaths (String.mk ('\'' :: ("/x/:user-id".data ++ ['\'']))) := by
  refine ⟨?_, by decide, by decide⟩
  rw [substParams_append_colonFree _ _ _ h0]
  rw [substParams_param p ('-' :: rest) n hp hid (by rfl)]
  rw [substParams_cons_ne '-' rest (n + 1) (by rfl)]
  rw [substParams_colonFree_id rest (n + 1) hrest]

/-- Witness for C10 at `s0 = /x/`, `p = user`, `rest = id`. -/
theorem substParams_hyphen_stops_witness :
    substParams ("/x/".data ++ ':' :: ("user".data ++ '-' :: "id".data)) 0 =
      "/x/".data ++ ((magunValue 0).data ++ '-' :: "id".data) ∧
    replacePaths "/x/:user-id" "https://ex.com" = "https://ex.com/x/magun4-id" ∧
    "/x/:user-id" ∈ extractPaths (String.mk ('\'' :: ("/x/:user-id".data ++ ['\'']))) :=
  substParams_hyphen_stops "/x/".data "user".data "id".data 0
    (by decide) (by decide) (by decide) (by decide)

/-- C4 counterexample: for the domain `http://x//` (ending in two slashes)
only one trailing slash is stripped, so two `/` characters separate the
domain from the path - the join point is not a single `/`; with a single
trailing slash the join is a single `/`. -/
theorem replacePaths_double_slash_join :
    replacePaths "/a/:b" "http://x//" = "http://x//a/magun4" ∧
    replacePaths "/a/:b" "http://x//" ≠ "http://x/a/magun4" ∧
    replacePaths "/a/:b" "http://x/" = "http://x/a/magun4" := by
  decide

/-- C4 (amended): the output of `replacePaths` is the domain with a single
trailing `/` stripped, followed by the substituted path with one trailing
`/*` removed and a leading `/` ensured; whenever the stripped domain does
not end in `/`, exactly the path's one leading `/` sits at the join point
(a domain ending in two or more slashes keeps the extra ones). -/
theorem replacePaths_single_join (p d : String)
    (hd : (stripSuffixOnce d.data ['/']).getLast? ≠ some '/') :
    ∃ rest, replacePaths p d =
      ((stripSuffixOnce d.data ['/']) ++ '/' :: rest).asString ∧
      (stripSuffixOnce d.data ['/']).getLast? ≠ some '/' := by
  have hrw : replacePaths p d =
      ((stripSuffixOnce d.data ['/']) ++
        (if (stripSuffixOnce (substParams p.data 0) ['/', '*']).head? == some '/'
         then stripSuffixOnce (substParams p.data 0) ['/', '*']
         else '/' :: stripSuffixOnce (substParams p.data 0) ['/', '*'])).asString := rfl
  by_cases hc : ((stripSuffixOnce (substParams p.data 0) ['/', '*']).head? == some '/') = true
  · rw [if_pos hc] at hrw
    cases hl : stripSuffixOnce (substParams p.data 0) ['/', '*'] with
    | nil =>
      rw [hl] at hc
      simp at hc
    | cons c0 t =>
      rw [hl] at hc hrw
      have hc0 : c0 = '/' := by simpa using hc
      subst hc0
      exact ⟨t, hrw, hd⟩
  · rw [if_neg hc] at hrw
    exact ⟨stripSuffixOnce (substParams p.data 0) ['/', '*'], hrw, hd⟩

/-- Witness for the amended C4 at `/a/:b` and domain `http://x/`. -/
theorem replacePaths_single_join_witness :
    ∃ rest, replacePaths "/a/:b" "http://x/" =
      ((stripSuffixOnce "http://x/".data ['/']) ++ '/' :: rest).asString ∧
      (stripSuffixOnce "http://x/".data ['/']).getLast? ≠ some '/' :=
  replacePaths_single_join "/a/:b" "http://x/" (by decide)

/-!
## URL-list theorems (C2, C7)
-/

/-- C2 (divergence at the failing input): the line
`https://x.com/a?__proto__=1` is processed - its query parses to the single
entry `("__proto__", "1")` - but the canonical query is empty and the
emitted URL has no query string at all: `keyCounts` is a plain object, and
its inherited `__proto__` accessor swallows the count, so the key multiset
is not preserved and no placeholder is assigned. -/
theorem processLine_proto_key_dropped :
    Option.map URLRec.entries (parseURL (jsTrim "https://x.com/a?__proto__=1".data)) =
      some [("__proto__", "1")] ∧
    canonQueryJS [("__proto__", "1")] = [] ∧
    processLine "https://x.com/a?__proto__=1" = some "https://x.com/a" := by
  decide

/-- C7: a line that is blank after trimming, does not start with
`http(s)://` (case-insensitively), contains no `?`, fails URL parsing, or
parses to zero query entries contributes nothing to the output, and its
presence does not change the result of processing the remaining lines. -/
theorem processUrlList_skips_bad_lines (pre post : List String) (line : String)
    (h : jsTrim line.data = [] ∨ startsHttp (jsTrim line.data) = false ∨
         (jsTrim line.data).contains '?' = false ∨
         parseURL (jsTrim line.data) = none ∨
         (∃ u, parseURL (jsTrim line.data) = some u ∧ u.entries = [])) :
    processUrlList (pre ++ line :: post) = processUrlList (pre ++ post) := by
  have hnone : processLine line = none := by
    by_cases h1 : (jsTrim line.data).isEmpty = true
    · rw [processLine, if_pos h1]
    · by_cases h2 : startsHttp (jsTrim line.data) = true
      · by_cases h3 : (jsTrim line.data).contains '?' = true
        · rw [processLine, if_neg h1, if_neg (by rw [h2]; simp),
            if_neg (by rw [h3]; simp)]
          cases hp : parseURL (jsTrim line.data) with
          | none => rfl
          | some u =>
            have hue : u.entries = [] := by
              rcases h with h | h | h | h | ⟨u', hu', hue'⟩
              · exact absurd (by rw [h]; rfl) h1
              · rw [h] at h2
                exact absurd h2 (by simp)
              · rw [h] at h3
                exact absurd h3 (by simp)
              · rw [h] at hp
                exact Option.noConfusion hp
              · rw [hu'] at hp
                cases hp
                exact hue'
            dsimp only
            rw [hue]
            rfl
        · have h3' : (jsTrim line.data).contains '?' = false := by
            revert h3
            cases (jsTrim line.data).contains '?' <;> simp
          rw [processLine, if_neg h1, if_neg (by rw [h2]; simp),
            if_pos (by rw [h3']; rfl)]
      · have h2' : startsHttp (jsTrim line.data) = false := by
          revert h2
          cases startsHttp (jsTrim line.data) <;> simp
        rw [processLine, if_neg h1, if_pos (by rw [h2']; rfl)]
  rw [processUrlList, processUrlList, List.filterMap_append, List.filterMap_append,
    List.filterMap_cons, hnone]

/-- Witness for C7: a malformed line between two valid lines is dropped
without affecting them. -/
theorem processUrlList_skips_bad_lines_witness :
    processUrlList (["https://a.io/p?x=1"] ++ "not-a-url" :: ["https://b.io/q?y=2"]) =
      processUrlList (["https://a.io/p?x=1"] ++ ["https://b.io/q?y=2"]) :=
  processUrlList_skips_bad_lines ["https://a.io/p?x=1"] ["https://b.io/q?y=2"]
    "not-a-url" (Or.inr (Or.inl (by decide)))

/-!
## Extraction-mode output invariants (C6)
-/

/-- C6: the template list written to `paths.txt` is the global extracted set
sorted lexicographically, with no duplicate lines, containing exactly the
templates some scanned file yields; the URL list written to
`CSPT_magun4.txt` has no duplicate lines and is the order-preserving
deduplication (first appearance over the sorted template list) of the
substituted URLs. -/
theorem extraction_output_invariants (contents : List String) (domain : String) :
    (pathsArrayOf contents).Nodup ∧
    List.Sorted (fun a b => a ≤ b) (pathsArrayOf contents) ∧
    (∀ s, s ∈ pathsArrayOf contents ↔ ∃ c ∈ contents, s ∈ extractPaths c) ∧
    (csptUrlsOf contents domain).Nodup ∧
    (csptUrlsOf contents domain).Sublist
      ((pathsArrayOf contents).map (fun q => replacePaths q domain)) ∧
    (∀ u, u ∈ csptUrlsOf contents domain ↔
      ∃ q ∈ pathsArrayOf contents, u = replacePaths q domain) := by
  have hperm := List.perm_insertionSort (fun a b : String => a ≤ b) (allPathsOf contents)
  refine ⟨?_, ?_, ?_, ?_, ?_, ?_⟩
  · exact hperm.nodup_iff.mpr (firstDedup_nodup _)
  · exact List.sorted_insertionSort (fun a b : String => a ≤ b) (allPathsOf contents)
  · intro s
    rw [pathsArrayOf, (List.perm_insertionSort _ _).mem_iff, allPathsOf,
      firstDedup_mem, List.mem_flatMap]
  · exact firstDedup_nodup _
  · exact firstDedup_sublist _
  · intro u
    rw [csptUrlsOf, firstDedup_mem, List.mem_map]
    constructor
    · rintro ⟨q, hq, rfl⟩
      exact ⟨q, hq, rfl⟩
    · rintro ⟨q, hq, rfl⟩
      exact ⟨q, hq, rfl⟩

/-!
## Filesystem theorems (C8, C9)
-/

/-- C8: for a nonexistent directory, `getAllJsFiles` emits the diagnostic
and returns an empty list, and the whole extraction run then completes
normally: `No paths with parameters found!` is reported, neither
`paths.txt` nor `CSPT_magun4.txt` is written, the exit code is 0 and
nothing is thrown. -/
theorem mainExtract_missing_dir (root : FSNode) (dir : List String) (domain : String)
    (h : lookup root dir = none) :
    getAllJsFiles root dir =
      (["Error: Directory " ++ joinPath dir ++ " does not exist"], Except.ok []) ∧
    mainExtract root dir domain =
      { paths_txt := none, cspt_txt := none,
        messages := ["Error: Directory " ++ joinPath dir ++ " does not exist",
                     "Found 0 JS file(s)", "No paths with parameters found!"],
        exitCode := 0, crashed := false } := by
  have hg : getAllJsFiles root dir =
      (["Error: Directory " ++ joinPath dir ++ " does not exist"], Except.ok []) := by
    rw [getAllJsFiles, h]
  refine ⟨hg, ?_⟩
  rw [mainExtract, hg]
  rfl

/-- Witness for C8 at an empty root and the directory name `nope`. -/
theorem mainExtract_missing_dir_witness :
    getAllJsFiles (FSNode.dir []) ["nope"] =
      (["Error: Directory " ++ joinPath ["nope"] ++ " does not exist"], Except.ok []) ∧
    mainExtract (FSNode.dir []) ["nope"] "https://d" =
      { paths_txt := none, cspt_txt := none,
        messages := ["Error: Directory " ++ joinPath ["nope"] ++ " does not exist",
                     "Found 0 JS file(s)", "No paths with parameters found!"],
        exitCode := 0, crashed := false } :=
  mainExtract_missing_dir (FSNode.dir []) ["nope"] "https://d" rfl

/-- A name present among the entries resolves to a node. -/
theorem statInEntries_ok {es : List (String × FSNode)} {nm : String}
    (h : ∃ e ∈ es, (e.1 == nm) = true) :
    ∃ n, statInEntries es nm = Except.ok n := by
  rw [statInEntries]
  cases hf : es.find? (fun e => e.1 == nm) with
  | some e => exact ⟨e.2, rfl⟩
  | none =>
    obtain ⟨e, he, hbeq⟩ := h
    exact absurd hbeq (by simpa using List.find?_eq_none.mp hf e he)

/-- The walk never throws when every processed name is a listed entry name:
each `statSync` resolves, and each recursive listing starts from the names
of the directory it lists. -/
theorem walkNames_total :
    ∀ (k : Nat) (es : List (String × FSNode)), sizeOf es ≤ k →
      ∀ (p : List String) (names : List String),
        (∀ nm ∈ names, ∃ e ∈ es, (e.1 == nm) = true) →
        ∃ l, walkNames p es names = Except.ok l := by
  intro k
  induction k with
  | zero =>
    intro es hk
    have hpos : 0 < sizeOf es := by
      cases es <;> simp
    omega
  | succ k ihk =>
    intro es hk p names hsub
    revert hsub
    revert p
    induction names with
    | nil =>
      intro p _
      exact ⟨[], by rw [walkNames]⟩
    | cons name rest ihn =>
      intro p hsub
      obtain ⟨nd, hnd⟩ := statInEntries_ok (hsub name (List.mem_cons_self _ _))
      rw [walkNames]
      split
      · next e heq =>
        rw [heq] at hnd
        exact Option.noConfusion (congrArg (fun x => x.toOption) hnd)
      · next es' heq =>
        have hsz : sizeOf es' ≤ k := by
          have h1 := statInEntries_sizeOf heq
          have h2 : sizeOf (FSNode.dir es') = 1 + sizeOf es' := by simp
          omega
        obtain ⟨l₁, h₁⟩ := ihk es' hsz (p ++ [name]) (es'.map Prod.fst)
          (fun nm hnm => by
            obtain ⟨e, he, heq2⟩ := List.mem_map.mp hnm
            exact ⟨e, he, by simp [heq2]⟩)
        obtain ⟨l₂, h₂⟩ := ihn p (fun nm hnm => hsub nm (List.mem_cons_of_mem _ hnm))
        rw [h₁, h₂]
        exact ⟨l₁ ++ l₂, rfl⟩
      · next c heq =>
        obtain ⟨l₂, h₂⟩ := ihn p (fun nm hnm => hsub nm (List.mem_cons_of_mem _ hnm))
        rw [h₂]
        exact ⟨(if hasJsSuffix name then [p ++ [name]] else []) ++ l₂, rfl⟩

/-- C9: for every existing root directory, `getAllJsFiles` completes without
throwing - every filesystem operation of the recursive descent (the listing
of each directory and the stat of each listed name) succeeds, in the
sequential in-memory filesystem model (no symbolic links, no concurrent
modification). -/
theorem getAllJsFiles_no_throw (root : FSNode) (dir : List String)
    (es : List (String × FSNode)) (h : lookup root dir = some (FSNode.dir es)) :
    ∃ l, (getAllJsFiles root dir).2 = Except.ok l := by
  rw [getAllJsFiles, h]
  exact walkNames_total (sizeOf es) es (Nat.le_refl _) dir (es.map Prod.fst)
    (fun nm hnm => by
      obtain ⟨e, he, heq⟩ := List.mem_map.mp hnm
      exact ⟨e, he, by simp [heq]⟩)

/-- Witness for C9 at a one-file root directory. -/
theorem getAllJsFiles_no_throw_witness :
    ∃ l, (getAllJsFiles (FSNode.dir [("a.js", FSNode.file "x")]) []).2 = Except.ok l :=
  getAllJsFiles_no_throw (FSNode.dir [("a.js", FSNode.file "x")]) []
    [("a.js", FSNode.file "x")] rfl

/-!
## The intended canonical query (supporting material for C2)

`canonQuerySpec` realizes the spec's multiset construction; the lemmas below
prove the claimed canonical-ordering property for it, and that the code's
plain-object construction agrees with it exactly when no query key is an
`Object.prototype` property name - isolating the `__proto__`-style failure.
-/

theorem assignPlaceholders_map_fst :
    ∀ (ks : List String) (n : Nat), (assignPlaceholders ks n).map Prod.fst = ks := by
  intro ks
  induction ks with
  | nil => intro n; rfl
  | cons k t ih =>
    intro n
    rw [assignPlaceholders, List.map_cons, ih]

theorem assignPlaceholders_map_snd :
    ∀ (ks : List String) (n : Nat),
      (assignPlaceholders ks n).map Prod.snd =
        (List.range ks.length).map (fun i => magunValue (n + i)) := by
  intro ks
  induction ks with
  | nil => intro n; rfl
  | cons k t ih =>
    intro n
    rw [assignPlaceholders, List.map_cons, ih (n + 1), List.length_cons,
      List.range_succ_eq_map, List.map_cons, List.map_map]
    congr 1
    refine List.map_congr_left ?_
    intro i _
    show magunValue (n + 1 + i) = magunValue (n + Nat.succ i)
    congr 1
    omega

theorem sorted_replicate (n : Nat) (x : String) :
    List.Sorted (fun a b : String => a ≤ b) (List.replicate n x) := by
  induction n with
  | zero => simp
  | succ n ih =>
    rw [List.replicate_succ, List.sorted_cons]
    exact ⟨fun b hb => (List.eq_of_mem_replicate hb) ▸ le_refl x, ih⟩

theorem sorted_flatMap_replicate (cnt : String → Nat) :
    ∀ (l : List String), List.Sorted (fun a b : String => a ≤ b) l →
      List.Sorted (fun a b : String => a ≤ b)
        (l.flatMap fun k => List.replicate (cnt k) k) := by
  intro l
  induction l with
  | nil => intro _; simp
  | cons x t ih =>
    intro hs
    rw [List.sorted_cons] at hs
    rw [List.flatMap_cons]
    refine List.pairwise_append.mpr ⟨sorted_replicate _ _, ih hs.2, ?_⟩
    intro a ha b hb
    obtain ⟨k, hk, hbk⟩ := List.mem_flatMap.mp hb
    rw [List.eq_of_mem_replicate ha, List.eq_of_mem_replicate hbk]
    exact hs.1 k hk

theorem count_flatMap_replicate (cnt : String → Nat) :
    ∀ (l : List String), l.Nodup → ∀ (k : String),
      (l.flatMap fun x => List.replicate (cnt x) x).count k =
        if k ∈ l then cnt k else 0 := by
  intro l
  induction l with
  | nil =>
    intro _ k
    simp
  | cons x t ih =>
    intro hnd k
    obtain ⟨hx, hnd'⟩ := List.nodup_cons.mp hnd
    rw [List.flatMap_cons, List.count_append, ih hnd' k, List.count_replicate]
    by_cases hk : k = x
    · subst hk
      rw [if_pos (by simp), if_neg hx, if_pos (List.mem_cons_self _ _)]
      omega
    · rw [if_neg (by simpa using fun hc : x = k => hk hc.symm)]
      by_cases hmem : k ∈ t
      · rw [if_pos hmem, if_pos (List.mem_cons_of_mem _ hmem)]
        simp
      · rw [if_neg hmem,
          if_neg (fun hc => (List.mem_cons.mp hc).elim hk hmem)]

theorem flatMap_replicate_perm (keys : List String) :
    ((List.insertionSort (fun a b : String => a ≤ b) (firstDedup keys)).flatMap
      (fun k => List.replicate (keys.count k) k)).Perm keys := by
  rw [List.perm_iff_count]
  intro k
  have hnd : (List.insertionSort (fun a b : String => a ≤ b) (firstDedup keys)).Nodup :=
    (List.perm_insertionSort _ _).nodup_iff.mpr (firstDedup_nodup _)
  rw [count_flatMap_replicate _ _ hnd k]
  by_cases hmem : k ∈ List.insertionSort (fun a b : String => a ≤ b) (firstDedup keys)
  · rw [if_pos hmem]
  · rw [if_neg hmem]
    have hnk : k ∉ keys := fun hc =>
      hmem ((List.perm_insertionSort _ _).mem_iff.mpr ((firstDedup_mem _ _).mpr hc))
    exact (List.count_eq_zero.mpr hnk).symm

/-- The spec's canonical query construction has exactly the claimed shape:
keys sorted lexicographically, key multiset preserved, placeholder values
`magun4, magun4_1, magun4_2, ...` assigned with one global index. -/
theorem canonQuerySpec_canonical (entries : List (String × String)) :
    List.Sorted (fun a b : String => a ≤ b) ((canonQuerySpec entries).map Prod.fst) ∧
    ((canonQuerySpec entries).map Prod.fst).Perm (entries.map Prod.fst) ∧
    (canonQuerySpec entries).map Prod.snd =
      (List.range (canonQuerySpec entries).length).map magunValue := by
  have hbody : canonQuerySpec entries =
      assignPlaceholders
        ((List.insertionSort (fun a b : String => a ≤ b)
          (firstDedup (entries.map Prod.fst))).flatMap
          (fun k => List.replicate ((entries.map Prod.fst).count k) k)) 0 := rfl
  have hlen : (canonQuerySpec entries).length =
      ((List.insertionSort (fun a b : String => a ≤ b)
        (firstDedup (entries.map Prod.fst))).flatMap
        (fun k => List.replicate ((entries.map Prod.fst).count k) k)).length := by
    rw [hbody]
    have := congrArg List.length (assignPlaceholders_map_fst
      ((List.insertionSort (fun a b : String => a ≤ b)
        (firstDedup (entries.map Prod.fst))).flatMap
        (fun k => List.replicate ((entries.map Prod.fst).count k) k)) 0)
    simpa using this
  refine ⟨?_, ?_, ?_⟩
  · rw [hbody, assignPlaceholders_map_fst]
    exact sorted_flatMap_replicate _ _ (List.sorted_insertionSort _ _)
  · rw [hbody, assignPlaceholders_map_fst]
    exact flatMap_replicate_perm _
  · rw [hlen, hbody, assignPlaceholders_map_snd]
    refine List.map_congr_left ?_
    intro i _
    rw [Nat.zero_add]

theorem dedupAcc_cons_mem {α : Type} [DecidableEq α] {seen : List α} {x : α}
    (l : List α) (hx : x ∈ seen) : dedupAcc seen (x :: l) = dedupAcc seen l := by
  rw [dedupAcc, if_pos hx]

theorem dedupAcc_cons_not_mem {α : Type} [DecidableEq α] {seen : List α} {x : α}
    (l : List α) (hx : x ∉ seen) :
    dedupAcc seen (x :: l) = x :: dedupAcc (x :: seen) l := by
  rw [dedupAcc, if_neg hx]

theorem dedupAcc_append_singleton {α : Type} [DecidableEq α] (k : α) :
    ∀ (l seen : List α), dedupAcc seen (l ++ [k]) =
      dedupAcc seen l ++ (if k ∈ seen ∨ k ∈ l then [] else [k]) := by
  intro l
  induction l with
  | nil =>
    intro seen
    by_cases hk : k ∈ seen
    · rw [List.nil_append, dedupAcc_cons_mem _ hk, if_pos (Or.inl hk)]
      rfl
    · rw [List.nil_append, dedupAcc_cons_not_mem _ hk,
        if_neg (by rintro (hc | hc); exacts [hk hc, absurd hc (List.not_mem_nil k)])]
      rfl
  | cons x t ih =>
    intro seen
    by_cases hx : x ∈ seen
    · rw [List.cons_append, dedupAcc_cons_mem _ hx, dedupAcc_cons_mem _ hx, ih seen]
      have hiff : (k ∈ seen ∨ k ∈ t) ↔ (k ∈ seen ∨ k ∈ x :: t) := by
        constructor
        · rintro (h | h)
          · exact Or.inl h
          · exact Or.inr (List.mem_cons_of_mem _ h)
        · rintro (h | h)
          · exact Or.inl h
          · rcases List.mem_cons.mp h with rfl | h
            · exact Or.inl hx
            · exact Or.inr h
      rw [if_congr hiff rfl rfl]
    · rw [List.cons_append, dedupAcc_cons_not_mem _ hx, dedupAcc_cons_not_mem _ hx,
        ih (x :: seen), List.cons_append]
      have hiff : (k ∈ x :: seen ∨ k ∈ t) ↔ (k ∈ seen ∨ k ∈ x :: t) := by
        constructor
        · rintro (h | h)
          · rcases List.mem_cons.mp h with rfl | h
            · exact Or.inr (List.mem_cons_self _ _)
            · exact Or.inl h
          · exact Or.inr (List.mem_cons_of_mem _ h)
        · rintro (h | h)
          · exact Or.inl (List.mem_cons_of_mem _ h)
          · rcases List.mem_cons.mp h with rfl | h
            · exact Or.inl (List.mem_cons_self _ _)
            · exact Or.inr h
      rw [if_congr hiff rfl rfl]

theorem firstDedup_append_singleton {α : Type} [DecidableEq α] (l : List α) (k : α) :
    firstDedup (l ++ [k]) = firstDedup l ++ (if k ∈ l then [] else [k]) := by
  rw [firstDedup, firstDedup, dedupAcc_append_singleton]
  by_cases hk : k ∈ l
  · rw [if_pos hk, if_pos (by simp [hk])]
  · rw [if_neg hk, if_neg (by simp [hk])]

theorem find?_keyMap (f : String → JsVal) (k : String) :
    ∀ (l : List String),
      ((l.map fun x => (x, f x)).find? fun e => e.1 == k) =
        if k ∈ l then some (k, f k) else none := by
  intro l
  induction l with
  | nil => simp
  | cons x t ih =>
    rw [List.map_cons]
    by_cases hx : (x == k) = true
    · have hxe : x = k := by simpa using hx
      subst hxe
      rw [List.find?_cons_of_pos _ (by simpa using hx),
        if_pos (List.mem_cons_self _ _)]
    · have hxe : x ≠ k := by simpa using hx
      rw [List.find?_cons_of_neg _ (by simpa using hx), ih]
      by_cases hm : k ∈ t
      · rw [if_pos hm, if_pos (List.mem_cons_of_mem _ hm)]
      · rw [if_neg hm,
          if_neg (fun hc => (List.mem_cons.mp hc).elim (fun h => hxe h.symm) hm)]

theorem jsObjGet_keyMap (l : List String) (f : String → JsVal) (k : String)
    (hpf : protoPropNames.contains k = false) :
    jsObjGet (l.map fun x => (x, f x)) k = if k ∈ l then some (f k) else none := by
  rw [jsObjGet, find?_keyMap]
  by_cases hm : k ∈ l
  · rw [if_pos hm, if_pos hm]
  · rw [if_neg hm, if_neg hm]
    dsimp only
    rw [hpf]
    rfl

theorem jsCountOf_keyMap (l : List String) (g : String → Nat) (k : String) :
    jsCountOf (l.map fun x => (x, JsVal.num (g x))) k = if k ∈ l then g k else 0 := by
  rw [jsCountOf, find?_keyMap]
  by_cases hm : k ∈ l
  · rw [if_pos hm, if_pos hm]
  · rw [if_neg hm, if_neg hm]

theorem setOwn_keyMap_mem (f : String → JsVal) (k : String) (v : JsVal) :
    ∀ (l : List String), l.Nodup → k ∈ l →
      setOwn (l.map fun x => (x, f x)) k v =
        l.map fun x => (x, if x = k then v else f x) := by
  intro l
  induction l with
  | nil =>
    intro _ hk
    cases hk
  | cons x t ih =>
    intro hnd hk
    obtain ⟨hx, hnd'⟩ := List.nodup_cons.mp hnd
    rw [List.map_cons, List.map_cons, setOwn]
    by_cases hxk : (x == k) = true
    · have hxe : x = k := by simpa using hxk
      subst hxe
      rw [if_pos (by simp), if_pos rfl]
      congr 1
      refine List.map_congr_left ?_
      intro y hy
      rw [if_neg (show y ≠ x from fun hc => hx (hc ▸ hy))]
    · have hxe : x ≠ k := by simpa using hxk
      rw [if_neg hxk, if_neg hxe]
      have hkt : k ∈ t := (List.mem_cons.mp hk).resolve_left (fun hc => hxe hc.symm)
      rw [ih hnd' hkt]

theorem setOwn_keyMap_not_mem (f : String → JsVal) (k : String) (v : JsVal) :
    ∀ (l : List String), k ∉ l →
      setOwn (l.map fun x => (x, f x)) k v =
        (l.map fun x => (x, f x)) ++ [(k, v)] := by
  intro l
  induction l with
  | nil => intro _; rfl
  | cons x t ih =>
    intro hk
    have hxe : x ≠ k := fun hc => hk (by rw [hc]; exact List.mem_cons_self _ _)
    rw [List.map_cons, setOwn, if_neg (by simpa using hxe),
      ih (fun hc => hk (List.mem_cons_of_mem _ hc)), List.cons_append]

theorem flatMap_congr_mem {α β : Type} (l : List α) (f g : α → List β)
    (h : ∀ a ∈ l, f a = g a) : l.flatMap f = l.flatMap g := by
  induction l with
  | nil => rfl
  | cons x t ih =>
    rw [List.flatMap_cons, List.flatMap_cons, h x (List.mem_cons_self _ _),
      ih (fun a ha => h a (List.mem_cons_of_mem _ ha))]

theorem bumpCount_mapped (done : List String) (k : String)
    (hk : protoPropNames.contains k = false) :
    bumpCount ((firstDedup done).map fun x => (x, JsVal.num (done.count x))) k =
      (firstDedup (done ++ [k])).map fun x => (x, JsVal.num ((done ++ [k]).count x)) := by
  have hproto : ¬((k == "__proto__") = true) := by
    intro hc
    have hke : k = "__proto__" := by simpa using hc
    rw [hke] at hk
    exact absurd hk (by decide)
  rw [bumpCount, jsObjGet_keyMap _ _ _ hk, firstDedup_append_singleton]
  by_cases hm : k ∈ done
  · have hmem : k ∈ firstDedup done := (firstDedup_mem _ _).mpr hm
    have hc0 : done.count k ≠ 0 := fun hc => (List.count_eq_zero.mp hc) hm
    rw [if_pos hm, if_pos hmem, List.append_nil]
    dsimp only
    rw [if_pos (show jsTruthy (some (JsVal.num (done.count k))) = true by
      simp [jsTruthy, hc0])]
    rw [jsObjSet, if_neg hproto, jsAdd1]
    rw [setOwn_keyMap_mem _ k _ (firstDedup done) (firstDedup_nodup done) hmem]
    refine List.map_congr_left ?_
    intro x hx
    by_cases hxk : x = k
    · subst hxk
      rw [if_pos rfl]
      have hcx : (done ++ [x]).count x = done.count x + 1 := by
        rw [List.count_append]
        simp [List.count_cons]
      rw [hcx]
    · rw [if_neg hxk]
      have hcx : (done ++ [k]).count x = done.count x := by
        rw [List.count_append]
        have h0 : List.count x [k] = 0 := by
          simp [List.count_cons, hxk]
        omega
      rw [hcx]
  · have hmem : k ∉ firstDedup done := fun hc => hm ((firstDedup_mem _ _).mp hc)
    have hc0 : done.count k = 0 := List.count_eq_zero.mpr hm
    rw [if_neg hm, if_neg hmem]
    dsimp only
    rw [jsObjSet, if_neg hproto, jsAdd1]
    rw [setOwn_keyMap_not_mem _ _ _ _ hmem, List.map_append]
    congr 1
    · refine List.map_congr_left ?_
      intro x hx
      have hxk : x ≠ k := fun hc => hmem (hc ▸ hx)
      have hcx : (done ++ [k]).count x = done.count x := by
        rw [List.count_append]
        have h0 : List.count x [k] = 0 := by
          simp [List.count_cons, hxk]
        omega
      rw [hcx]
    · have hck : (done ++ [k]).count k = 1 := by
        rw [List.count_append, hc0]
        simp [List.count_cons]
      rw [List.map_cons, List.map_nil, hck]

theorem keyCountsOf_fold (todo : List String) :
    ∀ (done : List String), (∀ k ∈ todo, protoPropNames.contains k = false) →
      List.foldl bumpCount
        ((firstDedup done).map fun x => (x, JsVal.num (done.count x))) todo =
      (firstDedup (done ++ todo)).map fun x => (x, JsVal.num ((done ++ todo).count x)) := by
  induction todo with
  | nil =>
    intro done _
    rw [List.foldl_nil, List.append_nil]
  | cons k todo' ih =>
    intro done hpf
    rw [List.foldl_cons, bumpCount_mapped done k (hpf k (List.mem_cons_self _ _)),
      ih (done ++ [k]) (fun k' hk' => hpf k' (List.mem_cons_of_mem _ hk')),
      List.append_assoc, List.singleton_append]

/-- On proto-free keys the plain-object count table is exactly the intended
dictionary: the distinct keys in first-occurrence order, each mapped to its
occurrence count. -/
theorem keyCountsOf_proto_free (keys : List String)
    (hpf : ∀ k ∈ keys, protoPropNames.contains k = false) :
    keyCountsOf keys = (firstDedup keys).map fun x => (x, JsVal.num (keys.count x)) := by
  have h := keyCountsOf_fold keys [] hpf
  rw [List.nil_append] at h
  exact h

/-- When no query key is an `Object.prototype` property name, the code's
canonicalization agrees with the spec's multiset construction - the C2
divergence is confined to prototype-property keys. -/
theorem canonQueryJS_eq_spec (entries : List (String × String))
    (h : ∀ k ∈ entries.map Prod.fst, protoPropNames.contains k = false) :
    canonQueryJS entries = canonQuerySpec entries := by
  have hkc := keyCountsOf_proto_free (entries.map Prod.fst) h
  have hfst : (keyCountsOf (entries.map Prod.fst)).map Prod.fst =
      firstDedup (entries.map Prod.fst) := by
    rw [hkc, List.map_map]
    exact List.map_id _
  have h1 : canonQueryJS entries =
      assignPlaceholders
        ((List.insertionSort (fun a b => a ≤ b)
          ((keyCountsOf (entries.map Prod.fst)).map Prod.fst)).flatMap
          (fun k => List.replicate (jsCountOf (keyCountsOf (entries.map Prod.fst)) k) k)) 0 :=
    rfl
  have h2 : canonQuerySpec entries =
      assignPlaceholders
        ((List.insertionSort (fun a b => a ≤ b)
          (firstDedup (entries.map Prod.fst))).flatMap
          (fun k => List.replicate ((entries.map Prod.fst).count k) k)) 0 :=
    rfl
  rw [h1, h2, hfst]
  refine congrArg (fun l => assignPlaceholders l 0) ?_
  refine flatMap_congr_mem _ _ _ ?_
  intro k hk
  have hkmem : k ∈ firstDedup (entries.map Prod.fst) :=
    (List.perm_insertionSort _ _).mem_iff.mp hk
  rw [hkc, jsCountOf_keyMap, if_pos hkmem]
